import Mathlib

/-!
Verification of the `clif` Sphinx domain (`docs/clif_domain.py`).

The Python module defines directives and autodoc documenters for Cranelift
IR objects: signature parsers (`parse_type`, `parse_params`,
`ClifInst.handle_signature`, `InstDocumenter.format_signature`), an
in-memory objects index with registration (`ClifObject.add_target_and_index`),
clearing/merging (`CraneliftDomain.clear_doc`, `merge_domaindata`) and
cross-reference resolution (`resolve_xref`, `resolve_any_xref`), and the
instruction-group content emitter (`InstGroupDocumenter.add_content`).

Strings are modelled as `List Char`; docutils nodes as a small inductive
type recording only the rendered content, which is all the directives set.
-/

/-- Rendered docutils nodes, recording the node kind and text content.
`text` models `nodes.Text`, `emphasis` models `nodes.emphasis`,
`desc_name` models `addnodes.desc_name` (the Python code always passes the
same string for rawsource and text, so one field suffices). -/
inductive Node where
  | text (s : List Char)
  | emphasis (s : List Char)
  | desc_name (s : List Char)
deriving DecidableEq, Repr

/-- ASCII word character, the class matched by `\w` and left unescaped by
`re.escape`: letters, digits and underscore. -/
def isWordChar (c : Char) : Bool :=
  (('a' ≤ c && c ≤ 'z') || ('A' ≤ c && c ≤ 'Z') || ('0' ≤ c && c ≤ '9') || c = '_')

/-- Uppercase ASCII letter, the class `[A-Z]` of the `typevar` regex. -/
def isUpperAZ (c : Char) : Bool := 'A' ≤ c && c ≤ 'Z'

/-- One character of `re.escape`: word characters are kept, every other
character is preceded by a backslash. -/
def escapeChar (c : Char) : List Char :=
  if isWordChar c then [c] else ['\\', c]

/-- `re.escape`, character by character. -/
def reEscape (l : List Char) : List Char := l.flatMap escapeChar

/-- Prepend a character to the first piece of a split result. -/
def cons1 (c : Char) : List (List Char) → List (List Char)
  | [] => [[c]]
  | s :: ss => (c :: s) :: ss

/-- `typevar.split(name)` where `typevar = re.compile('(\%[A-Z])')`:
split `name` at every occurrence of `%` followed by an uppercase letter.
Because the regex has a capturing group, the matched two-character pieces
are kept in the result, interleaved with the (possibly empty) unmatched
segments, exactly as `re.split` does. -/
def typevarSplit : List Char → List (List Char)
  | [] => [[]]
  | [c] => [[c]]
  | c :: d :: rest =>
    if c = '%' && isUpperAZ d then [] :: ['%', d] :: typevarSplit rest
    else cons1 c (typevarSplit (d :: rest))

/-- The regex source text `\w+` emitted for a type variable. -/
def wplusStr : List Char := ['\\', 'w', '+']

/-- The loop body of `parse_type`: skip empty pieces; a two-character piece
starting with `%` is displayed as an emphasised type variable and matched
by `\w+`; any other piece is displayed verbatim as a `desc_name` and
matched by its `re.escape`. The accumulator pairs the nodes appended to
`signode` with the regex string `re_str`. -/
def parseTypeStep (acc : List Node × List Char) (part : List Char) :
    List Node × List Char :=
  match part with
  | [] => acc
  | [c1, c2] =>
    if c1 = '%' then
      (acc.1 ++ [Node.emphasis [c2]], acc.2 ++ wplusStr)
    else
      (acc.1 ++ [Node.desc_name [c1, c2]], acc.2 ++ reEscape [c1, c2])
  | p => (acc.1 ++ [Node.desc_name p], acc.2 ++ reEscape p)

/-- `parse_type(name, signode)`: split on type variables and process each
piece, returning the appended nodes together with the regex string. -/
def parse_type (name : List Char) : List Node × List Char :=
  (typevarSplit name).foldl parseTypeStep ([], [])

/-- The nodes contributed by one piece, as `parse_type` computes them. -/
def partNodes (p : List Char) : List Node :=
  match p with
  | [] => []
  | [c1, c2] =>
    if c1 = '%' then [Node.emphasis [c2]] else [Node.desc_name [c1, c2]]
  | p => [Node.desc_name p]

/-- The regex text contributed by one piece, as `parse_type` computes it. -/
def partRe (p : List Char) : List Char :=
  match p with
  | [] => []
  | [c1, c2] => if c1 = '%' then wplusStr else reEscape [c1, c2]
  | p => reEscape p

/-- The nodes one piece should contribute according to the specification:
placeholders are exactly `%` followed by a single uppercase letter and
are rendered as emphasis of the letter; every other nonempty piece is a
`desc_name` holding the piece verbatim. -/
def claimPartNodes (p : List Char) : List Node :=
  match p with
  | [] => []
  | [c1, c2] =>
    if c1 = '%' ∧ isUpperAZ c2 then [Node.emphasis [c2]]
    else [Node.desc_name [c1, c2]]
  | p => [Node.desc_name p]

/-- The regex text one piece should contribute according to the
specification: `\w+` for a `%`-uppercase placeholder, the `re.escape` of
the piece otherwise. -/
def claimPartRe (p : List Char) : List Char :=
  match p with
  | [] => []
  | [c1, c2] =>
    if c1 = '%' ∧ isUpperAZ c2 then wplusStr else reEscape [c1, c2]
  | p => reEscape p


/-- Well-formed type signature: every `%` is immediately followed by an
uppercase letter, so every `%` starts a type-variable placeholder. -/
def pctOk : List Char → Bool
  | [] => true
  | [c] => c ≠ '%'
  | c :: d :: rest => (c ≠ '%' || isUpperAZ d) && pctOk (d :: rest)

/-- Tokens of the regex dialect emitted by `parse_type`: escaped or plain
literal characters and the `\w`/`\w+` word classes.  `re_str` strings are
concatenations of `re.escape` output and `\w+`, so this dialect covers
every pattern `parse_type` returns. -/
inductive Tok where
  | lit (c : Char)
  | word
  | wordPlus
deriving DecidableEq, Repr

/-- Compile a pattern of the dialect above: `\w+` and `\w` become word
tokens, a backslash escapes the following character, and any other
character stands for itself. -/
def compileRe : List Char → List Tok
  | [] => []
  | [c] => [Tok.lit c]
  | [c, d] =>
    if c = '\\' then (if d = 'w' then [Tok.word] else [Tok.lit d])
    else Tok.lit c :: compileRe [d]
  | c :: d :: e :: rest =>
    if c = '\\' then
      if d = 'w' then
        if e = '+' then Tok.wordPlus :: compileRe rest
        else Tok.word :: compileRe (e :: rest)
      else Tok.lit d :: compileRe (e :: rest)
    else Tok.lit c :: compileRe (d :: e :: rest)

/-- Whole-string matching of a token sequence, with backtracking for
`\w+` (which matches one or more word characters). -/
def toksMatch : List Tok → List Char → Bool
  | [], [] => true
  | [], _ :: _ => false
  | _ :: _, [] => false
  | Tok.lit c :: ts, d :: s => c = d && toksMatch ts s
  | Tok.word :: ts, d :: s => isWordChar d && toksMatch ts s
  | Tok.wordPlus :: ts, d :: s =>
    isWordChar d && (toksMatch ts s || toksMatch (Tok.wordPlus :: ts) s)
termination_by structural _ s => s

/-- Full match of a pattern string against a subject string. -/
def reFullMatch (pat s : List Char) : Bool := toksMatch (compileRe pat) s

/-- Is this position the start of a `%X` type-variable placeholder? -/
def phAt : List Char → Bool
  | c :: d :: _ => c = '%' && isUpperAZ d
  | _ => false

/-- The language described by the specification: the strings obtained from
the signature by replacing each `%X` placeholder (percent followed by a
single uppercase letter) with some nonempty sequence of word characters,
and keeping every other character as it is. -/
inductive Repl : List Char → List Char → Prop where
  | nil : Repl [] []
  | ph {u : Char} {rest s w : List Char} :
      isUpperAZ u = true → w ≠ [] → (∀ c ∈ w, isWordChar c = true) →
      Repl rest s → Repl ('%' :: u :: rest) (w ++ s)
  | ch {c : Char} {rest s : List Char} :
      phAt (c :: rest) = false → Repl rest s → Repl (c :: rest) (c :: s)


/-! ### Instruction signature parsing (`sep_equal`, `sep_comma`, `parse_params`,
`ClifInst.handle_signature`) -/

/-- Python whitespace, the class matched by `\s` and by `str.split(None)`. -/
def isWs (c : Char) : Bool :=
  (c = ' ' || c = '\t' || c = '\n' || c = '\r' || c = '\x0b' || c = '\x0c')

/-- Drop leading whitespace. -/
def dropLeadingWs (l : List Char) : List Char := l.dropWhile isWs

/-- Drop trailing whitespace. -/
def dropTrailingWs (l : List Char) : List Char :=
  (l.reverse.dropWhile isWs).reverse

/-- `re.split(sep_equal, sig, 1)` where `sep_equal = re.compile('\s*=\s*')`:
split at the first `=`, absorbing the contiguous whitespace on both sides
of it; with no `=` the string is returned whole. -/
def eqSplit1 (l : List Char) : List (List Char) :=
  if '=' ∈ l then
    [dropTrailingWs (l.takeWhile (fun c => c ≠ '=')),
     dropLeadingWs (l.drop ((l.takeWhile (fun c => c ≠ '=')).length + 1))]
  else [l]

/-- `sep_comma.split(s)` where `sep_comma = re.compile('\s*,\s*')`: split at
every comma, absorbing the contiguous whitespace around each comma. -/
def commaSplit (l : List Char) : List (List Char) :=
  if h : ',' ∈ l then
    dropTrailingWs (l.takeWhile (fun c => c ≠ ',')) ::
      commaSplit
        (dropLeadingWs (l.drop ((l.takeWhile (fun c => c ≠ ',')).length + 1)))
  else [l]
termination_by l.length
decreasing_by
  have h0 : 0 < l.length := List.length_pos.mpr (List.ne_nil_of_mem h)
  have h3 : (dropLeadingWs (l.drop
      ((l.takeWhile (fun c => c ≠ ',')).length + 1))).length ≤
      (l.drop ((l.takeWhile (fun c => c ≠ ',')).length + 1)).length := by
    rw [dropLeadingWs]
    exact (List.dropWhile_sublist isWs).length_le
  rw [List.length_drop] at h3
  omega

/-- `parse_params(s, signode)`: emit each comma-separated piece as an
emphasis node, with `', '` text between consecutive pieces. -/
def emphJoin : List (List Char) → List Node
  | [] => []
  | [p] => [Node.emphasis p]
  | p :: q :: ps => Node.emphasis p :: Node.text [',', ' '] :: emphJoin (q :: ps)

/-- The nodes appended by `parse_params(s, signode)`. -/
def parse_params (s : List Char) : List Node := emphJoin (commaSplit s)

/-- `str.split(None, 1)`: strip leading whitespace, take the first
whitespace-delimited token, then strip the whitespace following it; the
remainder is kept only when nonempty.  Returns `[]` for an all-whitespace
string, `[tok]` or `[tok, rest]` otherwise. -/
def pySplitWs1 (l : List Char) : List (List Char) :=
  match dropLeadingWs l with
  | [] => []
  | c :: rest0 =>
    if dropLeadingWs (rest0.drop ((rest0.takeWhile (fun d => !isWs d)).length)) = []
    then [c :: rest0.takeWhile (fun d => !isWs d)]
    else [c :: rest0.takeWhile (fun d => !isWs d),
          dropLeadingWs (rest0.drop ((rest0.takeWhile (fun d => !isWs d)).length))]

namespace ClifInst

/-- The second half of `ClifInst.handle_signature`: split `nameIns` (the
part after the outgoing parameters) at the first whitespace run into the
instruction name and the incoming parameters; `outNodes` are the nodes
already appended for the outgoing parameters.  `none` models the
`IndexError` Python raises when the name is missing (`parts[0]` of an
empty split). -/
def nameAndIns (outNodes : List Node) (nameIns : List Char) :
    Option (List Char × List Node) :=
  match pySplitWs1 nameIns with
  | [] => none
  | [n] => some (n, outNodes ++ [Node.desc_name n])
  | n :: r :: _ =>
    some (n, outNodes ++ [Node.desc_name n, Node.text [' ']] ++ parse_params r)

/-- `ClifInst.handle_signature(sig, signode)`: split at the first `=` (the
part before it holds the outgoing parameters, rendered by `parse_params`
followed by the text `' = '`), then handle the remainder.  Returns the
instruction name together with the nodes appended to `signode`. -/
def handle_signature (sig : List Char) : Option (List Char × List Node) :=
  match eqSplit1 sig with
  | [a, b] => nameAndIns (parse_params a ++ [Node.text [' ', '=', ' ']]) b
  | _ => nameAndIns [] sig

end ClifInst

/-- Join identifier lists with `', '`, as in the canonical signature text
`v0, v1 = inst op0, op1`. -/
def joinComma : List (List Char) → List Char
  | [] => []
  | [x] => x
  | x :: y :: rest => x ++ ',' :: ' ' :: joinComma (y :: rest)

/-- Build the canonical instruction-signature text `[outs =] name [ins]`:
the outgoing parameters (when any), `' = '`, the instruction name, a
space and the incoming parameters (when any). -/
def mkInstSig (outs : List (List Char)) (nm : List Char)
    (ins : List (List Char)) : List Char :=
  (if outs = [] then [] else joinComma outs ++ [' ', '=', ' ']) ++ nm ++
    (if ins = [] then [] else ' ' :: joinComma ins)

/-- A well-formed identifier: nonempty, and free of whitespace, commas and
equal signs. -/
def goodId (x : List Char) : Prop :=
  x ≠ [] ∧ ∀ c ∈ x, isWs c = false ∧ c ≠ ',' ∧ c ≠ '='

instance (x : List Char) : Decidable (goodId x) := by
  unfold goodId; infer_instance

/-! ### `InstDocumenter.format_signature` -/

/-- An instruction operand as seen by `format_signature`: its name and
whether its kind is `variable_args`. -/
structure Operand where
  name : List Char
  isVarArgs : Bool
deriving DecidableEq, Repr

/-- An instruction object as seen by `format_signature`. -/
structure Inst where
  name : List Char
  outs : List Operand
  ins : List Operand
deriving DecidableEq, Repr

/-- The loop over `inst.ins[1:]` in `format_signature`: a `variable_args`
operand is appended as `(name...)` with no separator, any other operand
as `', name'`. -/
def insTailFmt : List Operand → List Char
  | [] => []
  | op :: rest =>
    (if op.isVarArgs then '(' :: (op.name ++ ['.', '.', '.', ')'])
     else ',' :: ' ' :: op.name) ++ insTailFmt rest

/-- The rendering of an input list whose last operand `v` is variadic and
whose other operands `pre` are not, as the (amended) specification states
it: a lone variadic input appears as `name...` after a space; otherwise
the non-variadic inputs are joined with `', '` after a space and the
marker `(name...)` follows them directly with no separator. -/
def claimInsFmt (pre : List Operand) (v : Operand) : List Char :=
  match pre with
  | [] => ' ' :: (v.name ++ ['.', '.', '.'])
  | o :: os =>
    ' ' :: (o.name ++ os.flatMap (fun op => ',' :: ' ' :: op.name) ++
      '(' :: (v.name ++ ['.', '.', '.', ')']))

namespace InstDocumenter

/-- The first two assignments to `sig` in `format_signature`: the
instruction name, preceded by the outputs joined with `', '` and `' = '`
when there is at least one output. -/
def outsName (inst : Inst) : List Char :=
  if inst.outs.length > 0 then
    joinComma (inst.outs.map Operand.name) ++ [' ', '=', ' '] ++ inst.name
  else inst.name

/-- `InstDocumenter.format_signature()`: the outputs-and-name part, then
the first input after a space, suffixed by `...` when it is
`variable_args`; the remaining inputs are appended by `insTailFmt`. -/
def format_signature (inst : Inst) : List Char :=
  match inst.ins with
  | [] => outsName inst
  | op :: rest =>
    outsName inst ++ ' ' :: op.name ++
      (if op.isVarArgs then ['.', '.', '.'] else []) ++ insTailFmt rest

end InstDocumenter

/-! ### The objects index: association-list model of the Python dict
`env.domaindata['clif']['objects']`, mapping an object name to the pair
(defining document, object type).  Lookup returns the first matching
entry; insertion replaces an existing key in place (as assignment to a
Python dict key does) or appends a new one. -/

/-- Dictionary lookup. -/
def lookupD (d : List (List Char × (List Char × List Char))) (k : List Char) :
    Option (List Char × List Char) :=
  match d with
  | [] => none
  | (k', v) :: rest => if k' = k then some v else lookupD rest k

/-- Dictionary assignment `d[k] = v`. -/
def dictInsert (k : List Char) (v : List Char × List Char) :
    List (List Char × (List Char × List Char)) →
      List (List Char × (List Char × List Char))
  | [] => [(k, v)]
  | (k', v') :: rest =>
    if k' = k then (k, v) :: rest else (k', v') :: dictInsert k v rest

/-! ### `ClifObject.add_target_and_index` -/

/-- The state read and written by `add_target_and_index`: the enclosing
document's registered ids, the signature node's `names`/`ids`/`first`
attributes, the domain's objects index, the warnings emitted through the
reporter (modelled as the pair of the duplicated name and the other
instance's document, the data interpolated into the warning text), and
the general-index entries. -/
structure DocState where
  docIds : List (List Char)
  signodeNames : List (List Char)
  signodeIds : List (List Char)
  signodeFirst : Bool
  objects : List (List Char × (List Char × List Char))
  warnings : List (List Char × List Char)
  indexEntries : List (List Char × List Char)
deriving DecidableEq, Repr

namespace ClifObject

/-- `ClifObject.add_target_and_index(name, sig, signode)` for a directive
with object type `objtype` running in document `docname`.  `indexText` is
`self.get_index_text(name)` and `notSelfNames` is `not self.names`.  When
the target name is new to the document the signode is registered as a
target, a duplicate warning is emitted if the name is already indexed,
and the index entry is overwritten; in every case a general-index entry
is appended when `indexText` is nonempty. -/
def add_target_and_index (objtype name docname indexText : List Char)
    (notSelfNames : Bool) (st : DocState) : DocState :=
  let targetname := objtype ++ '-' :: name
  let st1 :=
    if targetname ∈ st.docIds then st
    else
      { st with
        signodeNames := st.signodeNames ++ [targetname]
        signodeIds := st.signodeIds ++ [targetname]
        signodeFirst := notSelfNames
        docIds := st.docIds ++ [targetname]
        warnings :=
          match lookupD st.objects name with
          | some (otherDoc, _) => st.warnings ++ [(name, otherDoc)]
          | none => st.warnings
        objects := dictInsert name (docname, objtype) st.objects }
  if indexText ≠ [] then
    { st1 with indexEntries := st1.indexEntries ++ [(indexText, targetname)] }
  else st1

end ClifObject

/-! ### `CraneliftDomain`: clearing, merging and xref resolution -/

/-- A resolved reference node, as produced by `make_refnode(builder,
fromdocname, todocname, targetid, contnode, target)`: we record the
source document, the target document, the target id and the target name
(the content node and builder only affect presentation). -/
structure RefNode where
  fromdoc : List Char
  todoc : List Char
  targetid : List Char
  target : List Char
deriving DecidableEq, Repr

namespace CraneliftDomain

/-- `CraneliftDomain.clear_doc(docname)`: delete every index entry whose
defining document is `docname`. -/
def clear_doc (docname : List Char)
    (objects : List (List Char × (List Char × List Char))) :
    List (List Char × (List Char × List Char)) :=
  objects.filter (fun e => !(e.2.1 = docname : Bool))

/-- `CraneliftDomain.merge_domaindata(docnames, otherdata)`: copy into the
index every entry of the other index whose defining document lies in
`docnames`. -/
def merge_domaindata (docnames : List (List Char))
    (objects other : List (List Char × (List Char × List Char))) :
    List (List Char × (List Char × List Char)) :=
  other.foldl
    (fun acc e => if e.2.1 ∈ docnames then dictInsert e.1 e.2 acc else acc)
    objects

/-- `CraneliftDomain.resolve_xref(env, fromdocname, builder, typ, target,
node, contnode)`: `None` when the target is not indexed, otherwise a
reference to the stored document with target id `objtype + '-' + target`. -/
def resolve_xref (objects : List (List Char × (List Char × List Char)))
    (fromdocname target : List Char) : Option RefNode :=
  match lookupD objects target with
  | none => none
  | some (doc, objtype) =>
    some ⟨fromdocname, doc, objtype ++ '-' :: target, target⟩

/-- `CraneliftDomain.resolve_any_xref(...)`: an empty list when the target
is not indexed, otherwise a single pair of the fully qualified role name
`'clif:' + self.role_for_objtype(objtype)` and the same reference node as
`resolve_xref`.  `role_for_objtype` is host-framework code (Sphinx), so
it is passed in as a parameter. -/
def resolve_any_xref (roleFor : List Char → List Char)
    (objects : List (List Char × (List Char × List Char)))
    (fromdocname target : List Char) : List (List Char × RefNode) :=
  match lookupD objects target with
  | none => []
  | some (doc, objtype) =>
    [(['c', 'l', 'i', 'f', ':'] ++ roleFor objtype,
      ⟨fromdocname, doc, objtype ++ '-' :: target, target⟩)]

end CraneliftDomain

/-! ### `InstGroupDocumenter.add_content` -/

namespace InstGroupDocumenter

/-- One emitted line of `InstGroupDocumenter.add_content`: a
`:clif:inst:` cross-reference role when the name is indexed, double
backquotes otherwise. -/
def fmtLine (objects : List (List Char × (List Char × List Char)))
    (n : List Char) : List Char :=
  match lookupD objects n with
  | some _ => (":clif:inst:`".data ++ n) ++ "`".data
  | none => ("``".data ++ n) ++ "``".data

/-- The body of `InstGroupDocumenter.add_content`: sort the instruction
names ascending (Python `list.sort()` on strings is lexicographic by code
point) and emit one formatted line per name. -/
def add_content_lines (objects : List (List Char × (List Char × List Char)))
    (names : List (List Char)) : List (List Char) :=
  (names.mergeSort (fun a b => decide (a ≤ b))).map (fmtLine objects)

end InstGroupDocumenter

/-! ## Structure of `parse_type` -/

/-! Sanity checks of the embedding on concrete inputs. -/

example : typevarSplit ['i', '%', 'B', 'x'] = [['i'], ['%', 'B'], ['x']] := by decide
example : typevarSplit ['%', 'a'] = [['%', 'a']] := by decide
example : typevarSplit ['%', '%', 'B'] = [['%'], ['%', 'B'], []] := by decide
example :
    parse_type ['i', '%', 'B'] =
      ([Node.desc_name ['i'], Node.emphasis ['B']], ['i', '\\', 'w', '+']) := by decide
example :
    parse_type ['%', 'a'] = ([Node.emphasis ['a']], wplusStr) := by decide
example : reFullMatch (parse_type ['i', '%', 'B']).2 ['i', 'x', '3'] = true := by decide
example : reFullMatch (parse_type ['i', '%', 'B']).2 ['i'] = false := by decide
example : reFullMatch (parse_type ['i', '3', '2']).2 ['i', '3', '2'] = true := by decide
example : reFullMatch (parse_type ['%', 'a']).2 ['%', 'a'] = false := by decide

theorem parseTypeStep_eq (acc : List Node × List Char) (p : List Char) :
    parseTypeStep acc p = (acc.1 ++ partNodes p, acc.2 ++ partRe p) := by
  match p with
  | [] => simp [parseTypeStep, partNodes, partRe]
  | [c1] => simp [parseTypeStep, partNodes, partRe]
  | [c1, c2] =>
    simp only [parseTypeStep, partNodes, partRe]
    split <;> simp
  | c1 :: c2 :: c3 :: r => simp [parseTypeStep, partNodes, partRe]

theorem foldl_parseTypeStep (l : List (List Char)) (acc : List Node × List Char) :
    l.foldl parseTypeStep acc = (acc.1 ++ l.flatMap partNodes, acc.2 ++ l.flatMap partRe) := by
  induction l generalizing acc with
  | nil => simp
  | cons p ps ih =>
    rw [List.foldl_cons, parseTypeStep_eq, ih]
    simp

theorem parse_type_eq (name : List Char) :
    parse_type name =
      ((typevarSplit name).flatMap partNodes, (typevarSplit name).flatMap partRe) := by
  rw [parse_type, foldl_parseTypeStep]
  simp

theorem pctOk_tail {c : Char} {l : List Char} (h : pctOk (c :: l) = true) :
    pctOk l = true := by
  cases l with
  | nil => rfl
  | cons d rest =>
    rw [pctOk] at h
    exact (Bool.and_eq_true_iff.mp h).2

theorem typevarSplit_ne_nil (l : List Char) : typevarSplit l ≠ [] := by
  match l with
  | [] => simp [typevarSplit]
  | [c] => simp [typevarSplit]
  | c :: d :: rest =>
    rw [typevarSplit]
    split
    · simp
    · cases h : typevarSplit (d :: rest) <;> simp [cons1, h]

theorem typevarSplit_head (l : List Char) :
    pctOk l = true → ∀ p ps, typevarSplit l = p :: ps → '%' ∉ p := by
  induction l using typevarSplit.induct with
  | case1 =>
    intro _ p ps h
    rw [typevarSplit] at h
    cases h
    simp
  | case2 c =>
    intro hl p ps h
    rw [typevarSplit] at h
    cases h
    rw [pctOk] at hl
    simp only [decide_eq_true_eq] at hl
    simp only [List.mem_singleton]
    exact fun h => hl h.symm
  | case3 c d rest hcond ih =>
    intro _ p ps h
    rw [typevarSplit, if_pos hcond] at h
    cases h
    simp
  | case4 c d rest hcond ih =>
    intro hl p ps h
    rw [typevarSplit, if_neg hcond] at h
    rw [pctOk, Bool.and_eq_true_iff] at hl
    have hc : c ≠ '%' := by
      intro hc
      rcases Bool.or_eq_true_iff.mp hl.1 with h1 | h1
      · simp [hc] at h1
      · simp [hc, h1] at hcond
    obtain ⟨q, qs, hq⟩ := List.exists_cons_of_ne_nil (typevarSplit_ne_nil (d :: rest))
    rw [hq] at h
    rw [cons1] at h
    cases h
    have hq2 : '%' ∉ q := ih hl.2 q _ hq
    simp only [List.mem_cons, not_or]
    exact ⟨fun h => hc h.symm, hq2⟩

theorem typevarSplit_classify (l : List Char) :
    pctOk l = true → ∀ p ∈ typevarSplit l,
      (∃ u, p = ['%', u] ∧ isUpperAZ u = true) ∨ '%' ∉ p := by
  induction l using typevarSplit.induct with
  | case1 =>
    intro _ p hp
    rw [typevarSplit] at hp
    simp at hp
    simp [hp]
  | case2 c =>
    intro hl p hp
    rw [typevarSplit] at hp
    simp at hp
    rw [pctOk] at hl
    simp only [decide_eq_true_eq] at hl
    right
    simp [hp]
    exact fun h => hl h.symm
  | case3 c d rest hcond ih =>
    intro hl p hp
    rw [typevarSplit, if_pos hcond] at hp
    rw [Bool.and_eq_true_iff, decide_eq_true_eq] at hcond
    rw [pctOk, Bool.and_eq_true_iff] at hl
    rw [List.mem_cons, List.mem_cons] at hp
    rcases hp with rfl | rfl | hp
    · right; simp
    · left; exact ⟨d, rfl, hcond.2⟩
    · exact ih (pctOk_tail hl.2) p hp
  | case4 c d rest hcond ih =>
    intro hl p hp
    rw [typevarSplit, if_neg hcond] at hp
    rw [pctOk, Bool.and_eq_true_iff] at hl
    have hc : c ≠ '%' := by
      intro hc
      rcases Bool.or_eq_true_iff.mp hl.1 with h1 | h1
      · simp [hc] at h1
      · simp [hc, h1] at hcond
    obtain ⟨q, qs, hq⟩ := List.exists_cons_of_ne_nil (typevarSplit_ne_nil (d :: rest))
    rw [hq, cons1, List.mem_cons] at hp
    have hq2 : '%' ∉ q := typevarSplit_head (d :: rest) hl.2 q _ hq
    rcases hp with rfl | hp
    · right
      simp only [List.mem_cons, not_or]
      exact ⟨fun h => hc h.symm, hq2⟩
    · exact ih hl.2 p (hq ▸ List.mem_cons_of_mem q hp)

theorem partNodes_eq_claim (p : List Char)
    (hp : (∃ u, p = ['%', u] ∧ isUpperAZ u = true) ∨ '%' ∉ p) :
    partNodes p = claimPartNodes p := by
  match p with
  | [] => rfl
  | [c1] => rfl
  | [c1, c2] =>
    rcases hp with ⟨u, hu1, hu2⟩ | hp
    · obtain ⟨rfl, rfl⟩ : c1 = '%' ∧ c2 = u := by simpa using hu1
      simp [partNodes, claimPartNodes, hu2]
    · have hc : c1 ≠ '%' := fun h => hp (by simp [h])
      simp [partNodes, claimPartNodes, hc]
  | c1 :: c2 :: c3 :: r => rfl

theorem partRe_eq_claim (p : List Char)
    (hp : (∃ u, p = ['%', u] ∧ isUpperAZ u = true) ∨ '%' ∉ p) :
    partRe p = claimPartRe p := by
  match p with
  | [] => rfl
  | [c1] => rfl
  | [c1, c2] =>
    rcases hp with ⟨u, hu1, hu2⟩ | hp
    · obtain ⟨rfl, rfl⟩ : c1 = '%' ∧ c2 = u := by simpa using hu1
      simp [partRe, claimPartRe, hu2]
    · have hc : c1 ≠ '%' := fun h => hp (by simp [h])
      simp [partRe, claimPartRe, hc]
  | c1 :: c2 :: c3 :: r => rfl

theorem flatMap_congr_of_mem {α β : Type} (l : List α) (f g : α → List β)
    (h : ∀ x ∈ l, f x = g x) : l.flatMap f = l.flatMap g := by
  induction l with
  | nil => rfl
  | cons x xs ih =>
    simp only [List.flatMap_cons]
    rw [h x (by simp), ih (fun y hy => h y (by simp [hy]))]

theorem partRe_cons (c : Char) (q : List Char) (hc : c ≠ '%') (hq : '%' ∉ q) :
    partRe (c :: q) = escapeChar c ++ partRe q := by
  match q with
  | [] => simp [partRe, reEscape]
  | [d] => simp [partRe, hc, reEscape]
  | [d, e] =>
    have hd : d ≠ '%' := fun h => hq (by simp [h])
    simp [partRe, hd, reEscape]
  | d :: e :: f :: r => simp [partRe, reEscape]

/-! ## Matching lemmas for the emitted regex dialect -/

theorem toksMatch_nil_iff (s : List Char) : toksMatch [] s = true ↔ s = [] := by
  cases s <;> simp [toksMatch]

theorem toksMatch_lit_iff (c : Char) (ts : List Tok) (s : List Char) :
    toksMatch (Tok.lit c :: ts) s = true ↔
      ∃ s2, s = c :: s2 ∧ toksMatch ts s2 = true := by
  cases s with
  | nil => simp [toksMatch]
  | cons d s2 =>
    rw [toksMatch]
    simp only [Bool.and_eq_true, decide_eq_true_eq]
    constructor
    · rintro ⟨rfl, h⟩
      exact ⟨s2, rfl, h⟩
    · rintro ⟨s3, heq, h⟩
      obtain ⟨rfl, rfl⟩ : d = c ∧ s2 = s3 := by simpa using heq
      exact ⟨rfl, h⟩

theorem toksMatch_wordPlus_intro (ts : List Tok) (w s2 : List Char)
    (hw : w ≠ []) (hall : ∀ c ∈ w, isWordChar c = true)
    (hm : toksMatch ts s2 = true) :
    toksMatch (Tok.wordPlus :: ts) (w ++ s2) = true := by
  induction w with
  | nil => exact absurd rfl hw
  | cons d w2 ih =>
    rw [List.cons_append, toksMatch]
    simp only [Bool.and_eq_true, Bool.or_eq_true]
    refine ⟨hall d (by simp), ?_⟩
    cases w2 with
    | nil => left; simpa using hm
    | cons e w3 =>
      right
      exact ih (by simp) (fun c hc => hall c (by simp [List.mem_cons] at hc ⊢; tauto))

theorem toksMatch_wordPlus_elim (ts : List Tok) (s : List Char)
    (h : toksMatch (Tok.wordPlus :: ts) s = true) :
    ∃ w s2, s = w ++ s2 ∧ w ≠ [] ∧ (∀ c ∈ w, isWordChar c = true) ∧
      toksMatch ts s2 = true := by
  induction s with
  | nil => rw [toksMatch] at h; exact absurd h (by simp)
  | cons d s2 ih =>
    rw [toksMatch] at h
    simp only [Bool.and_eq_true, Bool.or_eq_true] at h
    obtain ⟨hd, h2 | h2⟩ := h
    · exact ⟨[d], s2, rfl, by simp, by simpa using hd, h2⟩
    · obtain ⟨w, s3, heq, hw, hall, hm⟩ := ih h2
      refine ⟨d :: w, s3, by simp [heq], by simp, ?_, hm⟩
      intro c hc
      rcases List.mem_cons.mp hc with rfl | hc
      · exact hd
      · exact hall c hc

theorem compileRe_escape (c : Char) (rest : List Char) :
    compileRe (escapeChar c ++ rest) = Tok.lit c :: compileRe rest := by
  by_cases hw : isWordChar c = true
  · have hc : c ≠ '\\' := by
      intro h; subst h; exact absurd hw (by decide)
    rw [escapeChar, if_pos hw]
    cases rest with
    | nil => simp [compileRe]
    | cons d r2 =>
      cases r2 with
      | nil => simp [compileRe, hc]
      | cons e r3 => simp [compileRe, hc]
  · have hcw : c ≠ 'w' := by
      intro h; subst h; exact absurd (by decide) hw
    rw [escapeChar, if_neg hw]
    cases rest with
    | nil => simp [compileRe, hcw]
    | cons e r3 => simp [compileRe, hcw]

theorem compileRe_wplus (rest : List Char) :
    compileRe (wplusStr ++ rest) = Tok.wordPlus :: compileRe rest := by
  cases rest with
  | nil => simp [wplusStr, compileRe]
  | cons d r2 => simp [wplusStr, compileRe]

theorem Repl_nil_iff (s : List Char) : Repl [] s ↔ s = [] := by
  constructor
  · intro h; cases h; rfl
  · intro h; subst h; exact Repl.nil

theorem toksMatch_parse_type (name : List Char) :
    pctOk name = true → ∀ s,
      (toksMatch (compileRe ((typevarSplit name).flatMap partRe)) s = true ↔
        Repl name s) := by
  induction name using typevarSplit.induct with
  | case1 =>
    intro _ s
    rw [show (typevarSplit ([] : List Char)).flatMap partRe = [] from rfl,
       show compileRe [] = [] from rfl]
    exact (toksMatch_nil_iff s).trans (Repl_nil_iff s).symm
  | case2 c =>
    intro hl s
    rw [pctOk] at hl
    simp only [decide_eq_true_eq] at hl
    rw [show (typevarSplit [c]).flatMap partRe = escapeChar c ++ [] by
          simp [typevarSplit, partRe, reEscape],
       compileRe_escape]
    rw [toksMatch_lit_iff]
    constructor
    · rintro ⟨s2, rfl, h2⟩
      rw [show compileRe [] = [] from rfl, toksMatch_nil_iff] at h2
      subst h2
      exact Repl.ch rfl Repl.nil
    · intro h
      cases h with
      | ch hph h2 =>
        rw [Repl_nil_iff] at h2
        subst h2
        exact ⟨[], rfl, rfl⟩
  | case3 c d rest hcond ih =>
    intro hl s
    have hud : isUpperAZ d = true := (Bool.and_eq_true_iff.mp hcond).2
    have hc : c = '%' := by
      have := (Bool.and_eq_true_iff.mp hcond).1
      simpa using this
    subst hc
    have hrest : pctOk rest = true := pctOk_tail (pctOk_tail hl)
    rw [typevarSplit, if_pos hcond]
    rw [show (([] : List Char) :: ['%', d] :: typevarSplit rest).flatMap partRe =
          wplusStr ++ (typevarSplit rest).flatMap partRe by simp [partRe]]
    rw [compileRe_wplus]
    constructor
    · intro h
      obtain ⟨w, s2, rfl, hw, hall, hm⟩ := toksMatch_wordPlus_elim _ _ h
      exact Repl.ph hud hw hall ((ih hrest s2).mp hm)
    · intro h
      cases h with
      | ph hu hw hall h2 =>
        exact toksMatch_wordPlus_intro _ _ _ hw hall ((ih hrest _).mpr h2)
      | ch hph h2 =>
        rw [phAt] at hph
        simp [hud] at hph
  | case4 c d rest hcond ih =>
    intro hl s
    have hl2 : pctOk (d :: rest) = true := pctOk_tail hl
    have hc : c ≠ '%' := by
      intro hcc
      rw [pctOk, Bool.and_eq_true_iff] at hl
      rcases Bool.or_eq_true_iff.mp hl.1 with h1 | h1
      · simp [hcc] at h1
      · simp [hcc, h1] at hcond
    obtain ⟨q, qs, hq⟩ := List.exists_cons_of_ne_nil (typevarSplit_ne_nil (d :: rest))
    have hqh : '%' ∉ q := typevarSplit_head (d :: rest) hl2 q _ hq
    rw [typevarSplit, if_neg hcond, hq, cons1]
    rw [show ((c :: q) :: qs).flatMap partRe = partRe (c :: q) ++ qs.flatMap partRe by
          simp]
    rw [partRe_cons c q hc hqh, List.append_assoc]
    rw [show partRe q ++ qs.flatMap partRe = (typevarSplit (d :: rest)).flatMap partRe by
          rw [hq]; simp]
    rw [compileRe_escape, toksMatch_lit_iff]
    constructor
    · rintro ⟨s2, rfl, h2⟩
      exact Repl.ch (by rw [phAt]; simp [hc]) ((ih hl2 s2).mp h2)
    · intro h
      cases h with
      | ph hu hw hall h2 => exact absurd rfl hc
      | ch hph h2 => exact ⟨_, rfl, (ih hl2 _).mpr h2⟩

/-! ## Claims C1 and C2 -/

/-- C1, counterexample.  The signature `%a` contains no `%X` placeholder
(`a` is not uppercase), so by the claim its single nonempty piece `%a`
should be rendered as a `desc_name` holding `%a` verbatim, contributing
`re.escape('%a')`.  Instead `parse_type` treats every two-character piece
beginning with `%` as a placeholder: it renders emphasis on `a` alone and
contributes `\w+`. -/
theorem C1_cex :
    typevarSplit ['%', 'a'] = [['%', 'a']] ∧
    parse_type ['%', 'a'] = ([Node.emphasis ['a']], wplusStr) ∧
    parse_type ['%', 'a'] ≠ ([Node.desc_name ['%', 'a']], reEscape ['%', 'a']) := by
  decide

/-- C1 (amended): for every type signature in which each `%` is
immediately followed by an uppercase letter, the string is split on the
`%X` placeholders; each placeholder piece appends an emphasis node
containing only the letter and contributes `\w+` to the pattern, and
every other nonempty piece appends a `desc_name` node holding the piece
verbatim and contributes its `re.escape` to the pattern. -/
theorem C1_parse_type (name : List Char) (h : pctOk name = true) :
    parse_type name =
      ((typevarSplit name).flatMap claimPartNodes,
       (typevarSplit name).flatMap claimPartRe) := by
  rw [parse_type_eq]
  have hcl := typevarSplit_classify name h
  rw [flatMap_congr_of_mem _ partNodes claimPartNodes
        (fun p hp => partNodes_eq_claim p (hcl p hp)),
      flatMap_congr_of_mem _ partRe claimPartRe
        (fun p hp => partRe_eq_claim p (hcl p hp))]

/-- Witness for C1 at the signature `i%B`. -/
theorem C1_witness :
    pctOk ['i', '%', 'B'] = true ∧
    parse_type ['i', '%', 'B'] =
      ((typevarSplit ['i', '%', 'B']).flatMap claimPartNodes,
       (typevarSplit ['i', '%', 'B']).flatMap claimPartRe) :=
  ⟨by decide, C1_parse_type ['i', '%', 'B'] (by decide)⟩

/-- C2, counterexample.  The signature `%a` contains no `%X` placeholder,
so by the claim its compiled pattern should match the signature itself
and nothing else.  The pattern `parse_type` returns is `\w+`, which fails
to match `%a` and does match the unrelated string `q`. -/
theorem C2_cex :
    reFullMatch (parse_type ['%', 'a']).2 ['%', 'a'] = false ∧
    reFullMatch (parse_type ['%', 'a']).2 ['q'] = true := by
  decide

/-- C2 (amended): for every type signature in which each `%` is
immediately followed by an uppercase letter, the pattern string returned
by `parse_type`, compiled and matched against a whole string, matches
exactly the strings obtained from the signature by replacing each `%X`
placeholder with some nonempty sequence of word characters. -/
theorem C2_pattern (name : List Char) (h : pctOk name = true) (s : List Char) :
    reFullMatch (parse_type name).2 s = true ↔ Repl name s := by
  rw [reFullMatch, show (parse_type name).2 = (typevarSplit name).flatMap partRe by
        rw [parse_type_eq]]
  exact toksMatch_parse_type name h s

/-- Witness for C2 at the signature `i%B` and subject `iz8`. -/
theorem C2_witness : Repl ['i', '%', 'B'] ['i', 'z', '8'] :=
  (C2_pattern ['i', '%', 'B'] (by decide) ['i', 'z', '8']).mp (by decide)

/-! ## Lemmas for the instruction-signature parser -/

theorem takeWhile_all_append (p : Char → Bool) (a b : List Char)
    (h : ∀ c ∈ a, p c = true) :
    (a ++ b).takeWhile p = a ++ b.takeWhile p := by
  induction a with
  | nil => simp
  | cons c a2 ih =>
    rw [List.cons_append, List.takeWhile_cons_of_pos (h c (by simp)),
       ih (fun d hd => h d (by simp [hd])), List.cons_append]

theorem takeWhile_all_eq_self (p : Char → Bool) (a : List Char)
    (h : ∀ c ∈ a, p c = true) : a.takeWhile p = a := by
  have := takeWhile_all_append p a [] h
  simpa using this

theorem dropLeadingWs_eq_self (a : List Char)
    (h : ∀ c, a.head? = some c → isWs c = false) : dropLeadingWs a = a := by
  cases a with
  | nil => rfl
  | cons c a2 =>
    rw [dropLeadingWs, List.dropWhile_cons_of_neg (by simp [h c rfl])]

theorem dropTrailingWs_concat (a : List Char) (d : Char) (hd : isWs d = false) :
    dropTrailingWs (a ++ [d]) = a ++ [d] := by
  rw [dropTrailingWs, List.reverse_append]
  simp only [List.reverse_cons, List.reverse_nil, List.nil_append, List.singleton_append]
  rw [List.dropWhile_cons_of_neg (by simp [hd]), List.reverse_cons, List.reverse_reverse]

theorem mem_joinComma (ids : List (List Char)) (c : Char) (hc : c ∈ joinComma ids) :
    c = ',' ∨ c = ' ' ∨ ∃ x ∈ ids, c ∈ x := by
  induction ids with
  | nil => rw [joinComma] at hc; simp at hc
  | cons y rest ih =>
    cases rest with
    | nil =>
      rw [joinComma] at hc
      right; right; exact ⟨y, by simp, hc⟩
    | cons z r =>
      rw [joinComma] at hc
      rcases List.mem_append.mp hc with h | h
      · right; right; exact ⟨y, by simp, h⟩
      · rcases List.mem_cons.mp h with rfl | h
        · left; rfl
        rcases List.mem_cons.mp h with rfl | h
        · right; left; rfl
        · rcases ih h with h1 | h1 | ⟨x, hx, hcx⟩
          · left; exact h1
          · right; left; exact h1
          · right; right; exact ⟨x, List.mem_cons_of_mem y hx, hcx⟩

theorem joinComma_ends (ids : List (List Char)) (hne : ids ≠ [])
    (h : ∀ x ∈ ids, goodId x) :
    ∃ a d, joinComma ids = a ++ [d] ∧ isWs d = false := by
  induction ids with
  | nil => exact absurd rfl hne
  | cons y rest ih =>
    cases rest with
    | nil =>
      rw [joinComma]
      obtain ⟨hy, hall⟩ := h y (by simp)
      rcases List.eq_nil_or_concat y with rfl | ⟨a, d, rfl⟩
      · exact absurd rfl hy
      · exact ⟨a, d, List.concat_eq_append a d, (hall d (by simp)).1⟩
    | cons z r =>
      obtain ⟨a, d, heq, hd⟩ := ih (by simp) (fun x hx => h x (List.mem_cons_of_mem y hx))
      rw [joinComma, heq]
      exact ⟨y ++ ',' :: ' ' :: a, d, by simp, hd⟩

theorem joinComma_head (ids : List (List Char)) (hne : ids ≠ [])
    (h : ∀ x ∈ ids, goodId x) :
    ∃ c t, joinComma ids = c :: t ∧ isWs c = false := by
  cases ids with
  | nil => exact absurd rfl hne
  | cons y rest =>
    obtain ⟨hy, hall⟩ := h y (by simp)
    obtain ⟨c, yt, rfl⟩ := List.exists_cons_of_ne_nil hy
    cases rest with
    | nil => exact ⟨c, yt, by rw [joinComma], (hall c (by simp)).1⟩
    | cons z r =>
      exact ⟨c, yt ++ ',' :: ' ' :: joinComma (z :: r),
        by rw [joinComma, List.cons_append], (hall c (by simp)).1⟩

theorem dropWhile_all_neg (p : Char → Bool) (a : List Char)
    (h : ∀ c ∈ a, p c = false) : a.dropWhile p = a := by
  cases a with
  | nil => rfl
  | cons c a2 => rw [List.dropWhile_cons_of_neg (by simp [h c (by simp)])]

theorem dropTrailingWs_all (a : List Char) (h : ∀ c ∈ a, isWs c = false) :
    dropTrailingWs a = a := by
  rw [dropTrailingWs, dropWhile_all_neg isWs a.reverse
        (fun c hc => h c (List.mem_reverse.mp hc)),
     List.reverse_reverse]

theorem commaSplit_joinComma (ids : List (List Char)) (hne : ids ≠ [])
    (h : ∀ x ∈ ids, goodId x) : commaSplit (joinComma ids) = ids := by
  induction ids with
  | nil => exact absurd rfl hne
  | cons y rest ih =>
    obtain ⟨hy, hally⟩ := h y (by simp)
    cases rest with
    | nil =>
      rw [joinComma, commaSplit,
         dif_neg (fun hc => ((hally ',' hc).2.1) rfl)]
    | cons z r =>
      have hJ : joinComma (y :: z :: r) = y ++ ',' :: ' ' :: joinComma (z :: r) := by
        rw [joinComma]
      have hcm : ',' ∈ joinComma (y :: z :: r) := by rw [hJ]; simp
      rw [commaSplit, dif_pos hcm]
      have htw : (joinComma (y :: z :: r)).takeWhile (fun c => c ≠ ',') = y := by
        rw [hJ, takeWhile_all_append _ y _ (fun c hc => by simp [(hally c hc).2.1]),
           List.takeWhile_cons_of_neg (by simp), List.append_nil]
      have hdropn : (joinComma (y :: z :: r)).drop (y.length + 1) =
          ' ' :: joinComma (z :: r) := by
        rw [hJ, show y ++ ',' :: ' ' :: joinComma (z :: r) =
              (y ++ [',']) ++ ' ' :: joinComma (z :: r) by simp,
           List.drop_left' (by simp)]
      rw [htw, hdropn]
      have hdrop : dropLeadingWs (' ' :: joinComma (z :: r)) = joinComma (z :: r) := by
        rw [dropLeadingWs, List.dropWhile_cons_of_pos (by simp [isWs])]
        obtain ⟨c, t, hct, hcws⟩ :=
          joinComma_head (z :: r) (by simp) (fun x hx => h x (List.mem_cons_of_mem y hx))
        rw [hct, List.dropWhile_cons_of_neg (by simp [hcws]), ← hct]
      rw [hdrop, dropTrailingWs_all y (fun c hc => (hally c hc).1),
         ih (by simp) (fun x hx => h x (List.mem_cons_of_mem y hx))]

theorem eqSplit1_of_not_mem (l : List Char) (h : '=' ∉ l) : eqSplit1 l = [l] := by
  rw [eqSplit1, if_neg h]

theorem eqSplit1_mid (a b : List Char) (ha : '=' ∉ a) :
    eqSplit1 (a ++ ' ' :: '=' :: ' ' :: b) =
      [dropTrailingWs (a ++ [' ']), dropLeadingWs (' ' :: b)] := by
  have hm : '=' ∈ a ++ ' ' :: '=' :: ' ' :: b := by simp
  rw [eqSplit1, if_pos hm]
  have htw : (a ++ ' ' :: '=' :: ' ' :: b).takeWhile (fun c => c ≠ '=') =
      a ++ [' '] := by
    rw [takeWhile_all_append _ a _
          (fun c hc => by
            simp only [ne_eq, decide_eq_true_eq]
            exact fun h => ha (h ▸ hc)),
       List.takeWhile_cons_of_pos (by simp), List.takeWhile_cons_of_neg (by simp)]
  rw [htw]
  have hdr : (a ++ ' ' :: '=' :: ' ' :: b).drop ((a ++ [' ']).length + 1) =
      ' ' :: b := by
    rw [show a ++ ' ' :: '=' :: ' ' :: b = (a ++ [' ', '=']) ++ ' ' :: b by simp,
       List.drop_left' (by simp)]
  rw [hdr]

theorem pySplitWs1_single (nm : List Char) (hnm : goodId nm) :
    pySplitWs1 nm = [nm] := by
  obtain ⟨hne, hall⟩ := hnm
  obtain ⟨c, t, rfl⟩ := List.exists_cons_of_ne_nil hne
  have hd : dropLeadingWs (c :: t) = c :: t :=
    dropLeadingWs_eq_self _ (fun d hd => by cases hd; exact (hall c (by simp)).1)
  rw [pySplitWs1, hd]
  dsimp only
  have htw : t.takeWhile (fun d => !isWs d) = t :=
    takeWhile_all_eq_self _ t (fun d hd => by simp [(hall d (by simp [hd])).1])
  rw [htw, List.drop_length]
  simp [dropLeadingWs]

theorem pySplitWs1_pair (nm K : List Char) (hnm : goodId nm) (hK : K ≠ [])
    (hKh : ∀ c, K.head? = some c → isWs c = false) :
    pySplitWs1 (nm ++ ' ' :: K) = [nm, K] := by
  obtain ⟨hne, hall⟩ := hnm
  obtain ⟨c, t, rfl⟩ := List.exists_cons_of_ne_nil hne
  rw [List.cons_append]
  have hd : dropLeadingWs (c :: (t ++ ' ' :: K)) = c :: (t ++ ' ' :: K) :=
    dropLeadingWs_eq_self _ (fun d hd => by cases hd; exact (hall c (by simp)).1)
  rw [pySplitWs1, hd]
  dsimp only
  have htw : (t ++ ' ' :: K).takeWhile (fun d => !isWs d) = t := by
    rw [takeWhile_all_append _ t _
          (fun d hd => by simp [(hall d (by simp [hd])).1]),
       List.takeWhile_cons_of_neg (by simp [isWs]), List.append_nil]
  rw [htw, List.drop_left]
  have hdK : dropLeadingWs (' ' :: K) = K := by
    rw [dropLeadingWs, List.dropWhile_cons_of_pos (by simp [isWs])]
    obtain ⟨kc, kt, rfl⟩ := List.exists_cons_of_ne_nil hK
    rw [List.dropWhile_cons_of_neg (by simp [hKh kc rfl])]
  rw [hdK, if_neg hK]

theorem parse_params_joinComma (ids : List (List Char)) (hne : ids ≠ [])
    (h : ∀ x ∈ ids, goodId x) : parse_params (joinComma ids) = emphJoin ids := by
  rw [parse_params, commaSplit_joinComma ids hne h]

theorem eq_not_mem_joinComma (ids : List (List Char))
    (h : ∀ x ∈ ids, goodId x) : '=' ∉ joinComma ids := by
  intro hmem
  rcases mem_joinComma ids '=' hmem with h1 | h1 | ⟨x, hx, hcx⟩
  · exact absurd h1 (by decide)
  · exact absurd h1 (by decide)
  · exact ((h x hx).2 '=' hcx).2.2 rfl

theorem dropTrailingWs_concat_ws (x : List Char) (c : Char) (hc : isWs c = true) :
    dropTrailingWs (x ++ [c]) = dropTrailingWs x := by
  rw [dropTrailingWs, dropTrailingWs, List.reverse_append]
  simp only [List.reverse_cons, List.reverse_nil, List.nil_append, List.singleton_append]
  rw [List.dropWhile_cons_of_pos (by simp [hc])]

theorem nameAndIns_spec (outNodes : List Node) (nm : List Char)
    (ins : List (List Char)) (hnm : goodId nm) (hins : ∀ x ∈ ins, goodId x) :
    ClifInst.nameAndIns outNodes (nm ++ (if ins = [] then [] else ' ' :: joinComma ins)) =
      some (nm, outNodes ++ Node.desc_name nm ::
        (if ins = [] then [] else Node.text [' '] :: emphJoin ins)) := by
  cases ins with
  | nil =>
    rw [if_pos rfl, if_pos rfl, List.append_nil, ClifInst.nameAndIns, pySplitWs1_single nm hnm]
  | cons z zs =>
    rw [if_neg (by simp), if_neg (by simp)]
    obtain ⟨kc, kt, hkc, hkw⟩ := joinComma_head (z :: zs) (by simp) hins
    rw [ClifInst.nameAndIns,
       pySplitWs1_pair nm (joinComma (z :: zs)) hnm (by rw [hkc]; simp)
         (fun c hcc => by rw [hkc] at hcc; cases hcc; exact hkw)]
    dsimp only
    rw [parse_params_joinComma (z :: zs) (by simp) hins]
    simp

/-- C3: for every instruction signature of the form `[outs =] name [ins]`
built from well-formed identifiers, `ClifInst.handle_signature` splits at
the first `=` (whitespace absorbed), takes the first whitespace-delimited
token of the remainder as the instruction name, returns that name, and
renders: the `outs` identifiers as emphasis nodes joined by `', '`, then
`' = '`, then the name as a `desc_name` node, then a space and the `ins`
identifiers as emphasis nodes joined by `', '`; the outs part and `' = '`
are absent when there is no `=`, and the ins part is absent when no
operands follow the name. -/
theorem C3_handle_signature (outs ins : List (List Char)) (nm : List Char)
    (houts : ∀ x ∈ outs, goodId x) (hnm : goodId nm)
    (hins : ∀ x ∈ ins, goodId x) :
    ClifInst.handle_signature (mkInstSig outs nm ins) =
      some (nm,
        (if outs = [] then []
         else emphJoin outs ++ [Node.text [' ', '=', ' ']]) ++
          Node.desc_name nm ::
            (if ins = [] then [] else Node.text [' '] :: emphJoin ins)) := by
  cases outs with
  | nil =>
    rw [if_pos rfl, List.nil_append]
    have hsig : mkInstSig [] nm ins =
        nm ++ (if ins = [] then [] else ' ' :: joinComma ins) := by
      rw [mkInstSig, if_pos rfl, List.nil_append]
    rw [ClifInst.handle_signature, hsig]
    have hnot : '=' ∉ nm ++ (if ins = [] then [] else ' ' :: joinComma ins) := by
      intro hmem
      rcases List.mem_append.mp hmem with h1 | h1
      · exact (hnm.2 '=' h1).2.2 rfl
      · cases ins with
        | nil => simp at h1
        | cons z zs =>
          rw [if_neg (by simp)] at h1
          rcases List.mem_cons.mp h1 with h2 | h2
          · exact absurd h2 (by decide)
          · exact eq_not_mem_joinComma (z :: zs) hins h2
    rw [eqSplit1_of_not_mem _ hnot]
    exact nameAndIns_spec [] nm ins hnm hins
  | cons o os =>
    rw [if_neg (by simp)]
    have hsig : mkInstSig (o :: os) nm ins =
        joinComma (o :: os) ++ ' ' :: '=' :: ' ' ::
          (nm ++ (if ins = [] then [] else ' ' :: joinComma ins)) := by
      rw [mkInstSig, if_neg (by simp)]
      simp
    rw [ClifInst.handle_signature, hsig,
       eqSplit1_mid _ _ (eq_not_mem_joinComma (o :: os) houts)]
    obtain ⟨a, d, hae, had⟩ := joinComma_ends (o :: os) (by simp) houts
    have h1 : dropTrailingWs (joinComma (o :: os) ++ [' ']) = joinComma (o :: os) := by
      rw [dropTrailingWs_concat_ws _ ' ' (by decide), hae,
         dropTrailingWs_concat a d had]
    have h2 : dropLeadingWs (' ' ::
        (nm ++ (if ins = [] then [] else ' ' :: joinComma ins))) =
        nm ++ (if ins = [] then [] else ' ' :: joinComma ins) := by
      rw [dropLeadingWs, List.dropWhile_cons_of_pos (by decide)]
      obtain ⟨nc, nt, rfl⟩ := List.exists_cons_of_ne_nil hnm.1
      rw [List.cons_append,
         List.dropWhile_cons_of_neg (by simp [(hnm.2 nc (by simp)).1])]
    rw [h1, h2]
    dsimp only
    rw [parse_params_joinComma (o :: os) (by simp) houts,
       nameAndIns_spec _ nm ins hnm hins]

/-- Witness for C3 at the signature `v0, v1 = iadd x, y`. -/
theorem C3_witness :
    ClifInst.handle_signature
        (mkInstSig [['v', '0'], ['v', '1']] ['i', 'a', 'd', 'd'] [['x'], ['y']]) =
      some (['i', 'a', 'd', 'd'],
        (if ([['v', '0'], ['v', '1']] : List (List Char)) = [] then []
         else emphJoin [['v', '0'], ['v', '1']] ++ [Node.text [' ', '=', ' ']]) ++
          Node.desc_name ['i', 'a', 'd', 'd'] ::
            (if ([['x'], ['y']] : List (List Char)) = [] then []
             else Node.text [' '] :: emphJoin [['x'], ['y']])) :=
  C3_handle_signature [['v', '0'], ['v', '1']] [['x'], ['y']] ['i', 'a', 'd', 'd']
    (by decide) (by decide) (by decide)

/-! ## Claim C4 -/

theorem joinComma_map_operand (o : Operand) (os : List Operand) :
    joinComma ((o :: os).map Operand.name) =
      o.name ++ os.flatMap (fun op => ',' :: ' ' :: op.name) := by
  induction os generalizing o with
  | nil => rw [List.map_singleton, joinComma]; simp
  | cons p ps ih =>
    rw [List.map_cons, List.map_cons, joinComma, ← List.map_cons, ih p]
    simp

theorem insTailFmt_append (os : List Operand) (v : Operand)
    (hos : ∀ op ∈ os, op.isVarArgs = false) (hv : v.isVarArgs = true) :
    insTailFmt (os ++ [v]) =
      os.flatMap (fun op => ',' :: ' ' :: op.name) ++
        '(' :: (v.name ++ ['.', '.', '.', ')']) := by
  induction os with
  | nil => rw [List.nil_append, insTailFmt, insTailFmt, if_pos hv]; simp
  | cons o os2 ih =>
    rw [List.cons_append, insTailFmt, if_neg (by simp [hos o (by simp)]),
       ih (fun op hop => hos op (by simp [hop]))]
    simp

/-- C4, counterexample.  For an instruction `foo` with inputs `a`
(ordinary) and `b` (`variable_args`, hence a variadic last input that is
not the first), the claim prescribes the rendering `foo a, b(...)`;
`format_signature` actually appends `'({}...)'.format(name)` with no
`', '` separator, producing `foo a(b...)`. -/
theorem C4_cex :
    InstDocumenter.format_signature
        ⟨['f', 'o', 'o'], [], [⟨['a'], false⟩, ⟨['b'], true⟩]⟩ =
      ['f', 'o', 'o', ' ', 'a', '(', 'b', '.', '.', '.', ')'] ∧
    InstDocumenter.format_signature
        ⟨['f', 'o', 'o'], [], [⟨['a'], false⟩, ⟨['b'], true⟩]⟩ ≠
      ['f', 'o', 'o', ' ', 'a', ',', ' ', 'b', '(', '.', '.', '.', ')'] := by
  decide

/-- C4 (amended): when the last input operand is variadic
(`variable_args`) and every other input is not, the signature renders the
outputs joined by `', '` and followed by `' = '` when present, then the
instruction name, then the inputs: a lone variadic input is rendered as
`name...` after a space, and otherwise the non-variadic inputs are joined
with `', '` after the instruction name and the variadic marker
`(name...)` is appended directly after them, with no `', '` separator. -/
theorem C4_format_signature (inst : Inst) (pre : List Operand) (v : Operand)
    (hins : inst.ins = pre ++ [v]) (hpre : ∀ op ∈ pre, op.isVarArgs = false)
    (hv : v.isVarArgs = true) :
    InstDocumenter.format_signature inst =
      (if inst.outs.length > 0 then
        joinComma (inst.outs.map Operand.name) ++ [' ', '=', ' '] else []) ++
      inst.name ++ claimInsFmt pre v := by
  have houts : InstDocumenter.outsName inst =
      (if inst.outs.length > 0 then
        joinComma (inst.outs.map Operand.name) ++ [' ', '=', ' '] else []) ++
        inst.name := by
    rw [InstDocumenter.outsName]
    split <;> simp
  cases pre with
  | nil =>
    rw [List.nil_append] at hins
    rw [InstDocumenter.format_signature, hins]
    dsimp only
    rw [if_pos hv, insTailFmt, houts, claimInsFmt]
    simp
  | cons o os =>
    rw [List.cons_append] at hins
    rw [InstDocumenter.format_signature, hins]
    dsimp only
    rw [if_neg (by simp [hpre o (by simp)]),
       insTailFmt_append os v (fun op hop => hpre op (by simp [hop])) hv, houts,
       claimInsFmt]
    simp

/-- Witness for C4 at `a = call f(args...)`. -/
theorem C4_witness :
    InstDocumenter.format_signature
        ⟨['c', 'a', 'l', 'l'], [⟨['a'], false⟩],
         [⟨['f'], false⟩, ⟨['a', 'r', 'g', 's'], true⟩]⟩ =
      ['a', ' ', '=', ' ', 'c', 'a', 'l', 'l', ' ', 'f',
       '(', 'a', 'r', 'g', 's', '.', '.', '.', ')'] := by
  rw [C4_format_signature _ [⟨['f'], false⟩] ⟨['a', 'r', 'g', 's'], true⟩ rfl
        (by decide) rfl]
  decide

/-! ## The objects index: dictionary lemmas -/

theorem lookupD_dictInsert (k : List Char) (v : List Char × List Char)
    (d : List (List Char × (List Char × List Char))) (k' : List Char) :
    lookupD (dictInsert k v d) k' = if k = k' then some v else lookupD d k' := by
  induction d with
  | nil =>
    simp [dictInsert, lookupD]
  | cons e rest ih =>
    obtain ⟨k1, v1⟩ := e
    rw [dictInsert]
    by_cases h1 : k1 = k
    · rw [if_pos h1, lookupD]
      subst h1
      by_cases h2 : k1 = k'
      · rw [if_pos h2, if_pos h2]
      · rw [if_neg h2, if_neg h2, lookupD, if_neg h2]
    · rw [if_neg h1, lookupD]
      by_cases h2 : k1 = k'
      · rw [if_pos h2, lookupD, if_pos h2, if_neg (fun h => h1 (h2.trans h.symm))]
      · rw [if_neg h2, ih, lookupD, if_neg h2]

/-! ## Claims C5 and C9: `add_target_and_index` -/

/-- C5: registering a name that is already in the objects index, with a
target name new to the document, only emits a duplicate warning carrying
the other instance's document (the embedding is a total function: no
exception is raised), and the index entry for that name is replaced by
the (current document, object type) pair, the latest registration
winning; entries under other names are untouched. -/
theorem C5_add_target_and_index (objtype name docname indexText : List Char)
    (notSelfNames : Bool) (st : DocState) (odoc otyp : List Char)
    (h1 : (objtype ++ '-' :: name) ∉ st.docIds)
    (h2 : lookupD st.objects name = some (odoc, otyp)) :
    (ClifObject.add_target_and_index objtype name docname indexText
        notSelfNames st).warnings = st.warnings ++ [(name, odoc)] ∧
    lookupD (ClifObject.add_target_and_index objtype name docname indexText
        notSelfNames st).objects name = some (docname, objtype) ∧
    (∀ k, k ≠ name →
      lookupD (ClifObject.add_target_and_index objtype name docname indexText
          notSelfNames st).objects k = lookupD st.objects k) := by
  simp only [ClifObject.add_target_and_index, if_neg h1, h2]
  refine ⟨?_, ?_, ?_⟩
  · split <;> rfl
  · have : ∀ st1 : DocState,
        st1.objects = dictInsert name (docname, objtype) st.objects →
        lookupD st1.objects name = some (docname, objtype) := by
      intro st1 hst
      rw [hst, lookupD_dictInsert, if_pos rfl]
    split <;> exact this _ rfl
  · intro k hk
    have : lookupD (dictInsert name (docname, objtype) st.objects) k =
        lookupD st.objects k := by
      rw [lookupD_dictInsert, if_neg (fun h => hk h.symm)]
    split <;> exact this

/-- Witness for C5. -/
theorem C5_witness :
    (ClifObject.add_target_and_index ['i', 'n', 's', 't'] ['j', 'u', 'm', 'p']
        ['d', '2'] ['j', 'u', 'm', 'p'] true
        ⟨[], [], [], false, [(['j', 'u', 'm', 'p'], (['d', '1'], ['i', 'n', 's', 't']))],
         [], []⟩).warnings = [(['j', 'u', 'm', 'p'], ['d', '1'])] ∧
    lookupD (ClifObject.add_target_and_index ['i', 'n', 's', 't'] ['j', 'u', 'm', 'p']
        ['d', '2'] ['j', 'u', 'm', 'p'] true
        ⟨[], [], [], false, [(['j', 'u', 'm', 'p'], (['d', '1'], ['i', 'n', 's', 't']))],
         [], []⟩).objects ['j', 'u', 'm', 'p'] =
      some (['d', '2'], ['i', 'n', 's', 't']) := by
  have h := C5_add_target_and_index ['i', 'n', 's', 't'] ['j', 'u', 'm', 'p']
    ['d', '2'] ['j', 'u', 'm', 'p'] true
    ⟨[], [], [], false, [(['j', 'u', 'm', 'p'], (['d', '1'], ['i', 'n', 's', 't']))],
     [], []⟩ ['d', '1'] ['i', 'n', 's', 't'] (by decide) (by decide)
  exact ⟨by rw [h.1]; rfl, h.2.1⟩

/-- C9: when the target name is already among the document's ids the
whole registration block is skipped: the objects index is unchanged and
no duplicate warning is emitted. -/
theorem C9_add_target_and_index (objtype name docname indexText : List Char)
    (notSelfNames : Bool) (st : DocState)
    (h : (objtype ++ '-' :: name) ∈ st.docIds) :
    (ClifObject.add_target_and_index objtype name docname indexText
        notSelfNames st).objects = st.objects ∧
    (ClifObject.add_target_and_index objtype name docname indexText
        notSelfNames st).warnings = st.warnings := by
  simp only [ClifObject.add_target_and_index, if_pos h]
  constructor <;> (split <;> rfl)

/-- Witness for C9. -/
theorem C9_witness :
    (ClifObject.add_target_and_index ['t', 'y', 'p', 'e'] ['i', '8']
        ['d', '1'] ['i', '8'] false
        ⟨[['t', 'y', 'p', 'e', '-', 'i', '8']], [], [], false,
         [(['i', '8'], (['d', '0'], ['t', 'y', 'p', 'e']))], [], []⟩).objects =
      [(['i', '8'], (['d', '0'], ['t', 'y', 'p', 'e']))] ∧
    (ClifObject.add_target_and_index ['t', 'y', 'p', 'e'] ['i', '8']
        ['d', '1'] ['i', '8'] false
        ⟨[['t', 'y', 'p', 'e', '-', 'i', '8']], [], [], false,
         [(['i', '8'], (['d', '0'], ['t', 'y', 'p', 'e']))], [], []⟩).warnings = [] :=
  C9_add_target_and_index ['t', 'y', 'p', 'e'] ['i', '8'] ['d', '1'] ['i', '8']
    false _ (by decide)

/-! ## Claim C6: xref resolution -/

/-- C6: `resolve_xref` returns `None` exactly when the target is not a
key of the objects index, and otherwise a reference to the stored
defining document whose target id is the stored object type, `'-'` and
the name; `resolve_any_xref` likewise returns the empty list exactly when
the target is absent, and otherwise a one-element list holding the
qualified role and the same reference. -/
theorem C6_resolve_xref (objects : List (List Char × (List Char × List Char)))
    (fromdocname target : List Char) (roleFor : List Char → List Char) :
    (CraneliftDomain.resolve_xref objects fromdocname target = none ↔
      lookupD objects target = none) ∧
    (∀ d t, lookupD objects target = some (d, t) →
      CraneliftDomain.resolve_xref objects fromdocname target =
        some ⟨fromdocname, d, t ++ '-' :: target, target⟩) ∧
    (CraneliftDomain.resolve_any_xref roleFor objects fromdocname target = [] ↔
      lookupD objects target = none) ∧
    (∀ d t, lookupD objects target = some (d, t) →
      CraneliftDomain.resolve_any_xref roleFor objects fromdocname target =
        [(['c', 'l', 'i', 'f', ':'] ++ roleFor t,
          ⟨fromdocname, d, t ++ '-' :: target, target⟩)]) := by
  cases h : lookupD objects target with
  | none =>
    refine ⟨?_, ?_, ?_, ?_⟩
    · rw [CraneliftDomain.resolve_xref, h]; simp
    · intro d t hdt; cases hdt
    · rw [CraneliftDomain.resolve_any_xref, h]; simp
    · intro d t hdt; cases hdt
  | some p =>
    obtain ⟨d0, t0⟩ := p
    refine ⟨?_, ?_, ?_, ?_⟩
    · rw [CraneliftDomain.resolve_xref, h]; simp
    · intro d t hdt
      obtain ⟨rfl, rfl⟩ : d0 = d ∧ t0 = t := by simpa using hdt
      rw [CraneliftDomain.resolve_xref, h]
    · rw [CraneliftDomain.resolve_any_xref, h]; simp
    · intro d t hdt
      obtain ⟨rfl, rfl⟩ : d0 = d ∧ t0 = t := by simpa using hdt
      rw [CraneliftDomain.resolve_any_xref, h]

/-- Witness for C6 on a one-entry index. -/
theorem C6_witness :
    CraneliftDomain.resolve_xref [(['i', 'a', 'd', 'd'], (['d', '1'], ['i', 'n', 's', 't']))]
        ['d', '2'] ['i', 'a', 'd', 'd'] =
      some ⟨['d', '2'], ['d', '1'],
        ['i', 'n', 's', 't'] ++ '-' :: ['i', 'a', 'd', 'd'], ['i', 'a', 'd', 'd']⟩ ∧
    CraneliftDomain.resolve_xref [(['i', 'a', 'd', 'd'], (['d', '1'], ['i', 'n', 's', 't']))]
        ['d', '2'] ['n', 'o'] = none :=
  ⟨(C6_resolve_xref [(['i', 'a', 'd', 'd'], (['d', '1'], ['i', 'n', 's', 't']))]
      ['d', '2'] ['i', 'a', 'd', 'd'] id).2.1 ['d', '1'] ['i', 'n', 's', 't'] (by decide),
   (C6_resolve_xref [(['i', 'a', 'd', 'd'], (['d', '1'], ['i', 'n', 's', 't']))]
      ['d', '2'] ['n', 'o'] id).1.mpr (by decide)⟩

/-! ## Claim C7: `merge_domaindata` -/

theorem lookupD_mergeFold_of_no_key
    (l : List (List Char × (List Char × List Char)))
    (docnames : List (List Char))
    (acc : List (List Char × (List Char × List Char))) (k : List Char)
    (hk : ∀ e ∈ l, e.1 ≠ k) :
    lookupD (l.foldl
      (fun acc e => if e.2.1 ∈ docnames then dictInsert e.1 e.2 acc else acc)
      acc) k = lookupD acc k := by
  induction l generalizing acc with
  | nil => rfl
  | cons e rest ih =>
    rw [List.foldl_cons, ih _ (fun e2 he2 => hk e2 (by simp [he2]))]
    split
    · rw [lookupD_dictInsert, if_neg (hk e (by simp))]
    · rfl

/-- C7: `merge_domaindata` copies from the other index exactly the
entries whose defining document is in `docnames`; entries for other
documents are ignored, and a pre-existing entry not overridden by a
copied one is unchanged.  The other index is a Python dict, so its keys
are distinct. -/
theorem C7_merge_domaindata (docnames : List (List Char))
    (objects other : List (List Char × (List Char × List Char)))
    (hnd : (other.map Prod.fst).Nodup) (k : List Char) :
    lookupD (CraneliftDomain.merge_domaindata docnames objects other) k =
      (match lookupD other k with
       | some (fn, t) => if fn ∈ docnames then some (fn, t) else lookupD objects k
       | none => lookupD objects k) := by
  induction other generalizing objects with
  | nil => rfl
  | cons e rest ih =>
    obtain ⟨k1, fn1, t1⟩ := e
    rw [List.map_cons, List.nodup_cons] at hnd
    rw [CraneliftDomain.merge_domaindata, List.foldl_cons]
    by_cases hkk : k1 = k
    · subst hkk
      have hnk : ∀ e ∈ rest, e.1 ≠ k1 := by
        intro e he h
        have hm : e.1 ∈ rest.map Prod.fst := List.mem_map_of_mem Prod.fst he
        rw [h] at hm
        exact hnd.1 hm
      rw [lookupD_mergeFold_of_no_key rest docnames _ k1 hnk, lookupD, if_pos rfl]
      dsimp only
      split
      · rw [lookupD_dictInsert, if_pos rfl]
      · rfl
    · have hlk : lookupD ((k1, (fn1, t1)) :: rest) k = lookupD rest k := by
        rw [lookupD, if_neg hkk]
      rw [hlk]
      dsimp only
      have hacc : lookupD
          (if fn1 ∈ docnames then dictInsert k1 (fn1, t1) objects else objects) k =
          lookupD objects k := by
        split
        · rw [lookupD_dictInsert, if_neg hkk]
        · rfl
      have hih := ih (if fn1 ∈ docnames then dictInsert k1 (fn1, t1) objects
          else objects) hnd.2
      rw [CraneliftDomain.merge_domaindata, hacc] at hih
      exact hih

/-- Witness for C7: the entry for `x` defined in document `dA` is copied,
the entry for `y` defined in `dB` (outside the merged set) is ignored. -/
theorem C7_witness :
    lookupD (CraneliftDomain.merge_domaindata [['d', 'A']]
        [(['x'], (['d', '0'], ['t', 'y', 'p', 'e']))]
        [(['x'], (['d', 'A'], ['i', 'n', 's', 't'])),
         (['y'], (['d', 'B'], ['i', 'n', 's', 't']))]) ['x'] =
      some (['d', 'A'], ['i', 'n', 's', 't']) ∧
    lookupD (CraneliftDomain.merge_domaindata [['d', 'A']]
        [(['x'], (['d', '0'], ['t', 'y', 'p', 'e']))]
        [(['x'], (['d', 'A'], ['i', 'n', 's', 't'])),
         (['y'], (['d', 'B'], ['i', 'n', 's', 't']))]) ['y'] = none :=
  ⟨(C7_merge_domaindata _ _ _ (by decide) ['x']).trans (by decide),
   (C7_merge_domaindata _ _ _ (by decide) ['y']).trans (by decide)⟩

/-! ## Claim C8: `clear_doc` -/

/-- C8: `clear_doc` removes exactly the entries whose defining document
is the given one (it keeps an entry if and only if it was present and its
document differs), leaves the others unchanged in order (the result is a
sublist of the original), and applying it twice equals applying it
once. -/
theorem C8_clear_doc (docname : List Char)
    (objects : List (List Char × (List Char × List Char))) :
    (∀ k v, (k, v) ∈ CraneliftDomain.clear_doc docname objects ↔
      ((k, v) ∈ objects ∧ v.1 ≠ docname)) ∧
    CraneliftDomain.clear_doc docname (CraneliftDomain.clear_doc docname objects) =
      CraneliftDomain.clear_doc docname objects ∧
    (CraneliftDomain.clear_doc docname objects).Sublist objects := by
  refine ⟨?_, ?_, ?_⟩
  · intro k v
    rw [CraneliftDomain.clear_doc, List.mem_filter]
    simp
  · rw [CraneliftDomain.clear_doc, CraneliftDomain.clear_doc, List.filter_filter]
    simp
  · exact List.filter_sublist _

/-! ## Claim C10: `InstGroupDocumenter.add_content` -/

/-- C10: `add_content` emits the group's instruction names in ascending
sorted order, one line per name (the lines are the image of a sorted
permutation of the names), and a name is formatted as a `:clif:inst:`
cross-reference role exactly when it is a key of the objects index, as
double-backquoted literal text otherwise. -/
theorem C10_add_content (objects : List (List Char × (List Char × List Char)))
    (names : List (List Char)) :
    (∃ ns, names.Perm ns ∧ ns.Sorted (· ≤ ·) ∧
      InstGroupDocumenter.add_content_lines objects names =
        ns.map (InstGroupDocumenter.fmtLine objects)) ∧
    (∀ n d t, lookupD objects n = some (d, t) →
      InstGroupDocumenter.fmtLine objects n = (":clif:inst:`".data ++ n) ++ "`".data) ∧
    (∀ n, lookupD objects n = none →
      InstGroupDocumenter.fmtLine objects n = ("``".data ++ n) ++ "``".data) := by
  refine ⟨⟨names.mergeSort (fun a b => decide (a ≤ b)), ?_, ?_, rfl⟩, ?_, ?_⟩
  · exact (List.mergeSort_perm names _).symm
  · have h := @List.sorted_mergeSort (List Char)
      (fun a b => decide (a ≤ b))
      (fun a b c hab hbc => by
        simp only [decide_eq_true_eq] at hab hbc ⊢
        exact le_trans hab hbc)
      (fun a b => by
        simp only [Bool.or_eq_true, decide_eq_true_eq]
        exact le_total a b)
      names
    exact h.imp (fun hab => by simpa using hab)
  · intro n d t hn
    rw [InstGroupDocumenter.fmtLine, hn]
  · intro n hn
    rw [InstGroupDocumenter.fmtLine, hn]

/-- Witness for C10's formatting alternatives on a one-entry index. -/
theorem C10_witness :
    InstGroupDocumenter.fmtLine [(['b', 'r'], (['d', '1'], ['i', 'n', 's', 't']))]
        ['b', 'r'] = (":clif:inst:`".data ++ ['b', 'r']) ++ "`".data ∧
    InstGroupDocumenter.fmtLine [(['b', 'r'], (['d', '1'], ['i', 'n', 's', 't']))]
        ['b', 'q'] = ("``".data ++ ['b', 'q']) ++ "``".data :=
  ⟨(C10_add_content [(['b', 'r'], (['d', '1'], ['i', 'n', 's', 't']))] []).2.1
      ['b', 'r'] ['d', '1'] ['i', 'n', 's', 't'] (by decide),
   (C10_add_content [(['b', 'r'], (['d', '1'], ['i', 'n', 's', 't']))] []).2.2
      ['b', 'q'] (by decide)⟩
